import Mathlib

/-!
Shallow embedding of the flappy-face server (src/server.js, with the
legacy MIME allow-list from src/unnamed/part_000): the `safeUsername`
normalization helper, the `leaderboard` table, the three leaderboard
endpoints (`POST /api/score`, `GET /api/rank`, `GET /api/leaderboard`)
and the `POST /api/upload-avatar` route.

Modelling choices:
* character-level operations model the ASCII fragment of the JS string
  functions (`trim`, `toLowerCase`, the `\s` and `[^a-z0-9_-]` classes);
* a JS `Number` obtained from request data is `Option ℚ`, where `none`
  models a non-finite value (`NaN` or `±Infinity`), so that
  `Number.isFinite` is `Option.isSome`;
* the SQLite `leaderboard` table is a list of rows; the `TEXT` column
  `updated_at` is a `String` compared with the lexicographic order,
  matching SQLite's BINARY collation on the ASCII timestamps involved;
* each request handler is a pure function from its parsed inputs and the
  current store to a response and the next store.
-/

/-- The ASCII part of the JS whitespace class `\s` (matched by
`String.prototype.trim` and by `/\s+/`): tab 9, LF 10, VT 11, FF 12,
CR 13, space 32. -/
def isJsSpace (c : Char) : Bool :=
  c.toNat = 32 || c.toNat = 9 || c.toNat = 10 || c.toNat = 11 ||
    c.toNat = 12 || c.toNat = 13

/-- The ASCII part of JS `String.prototype.toLowerCase`: codes 65-90
(`A`-`Z`) are shifted by 32 to `a`-`z`, all other characters are kept. -/
def jsToLower (c : Char) : Char :=
  if 65 ≤ c.toNat ∧ c.toNat ≤ 90 then Char.ofNat (c.toNat + 32) else c

/-- The character class `[a-z0-9_-]` kept by `safeUsername`'s final
`replace`: codes 97-122 (`a`-`z`), 48-57 (`0`-`9`), 95 (`_`), 45 (`-`). -/
def isAllowedChar (c : Char) : Bool :=
  (97 ≤ c.toNat && c.toNat ≤ 122) || (48 ≤ c.toNat && c.toNat ≤ 57) ||
    c.toNat = 95 || c.toNat = 45

/-- JS `String.prototype.trim` on a character list: drop whitespace from
both ends. -/
def trimChars (l : List Char) : List Char :=
  ((l.dropWhile isJsSpace).reverse.dropWhile isJsSpace).reverse

/-- JS `raw.replace(/\s+/g, "-")` on a character list: each maximal run
of whitespace becomes a single `-`. The boolean records whether the
previous character was whitespace (i.e. whether we are inside a run). -/
def collapseWs : Bool → List Char → List Char
  | _, [] => []
  | prevWs, c :: cs =>
    if isJsSpace c then
      if prevWs then collapseWs true cs else '-' :: collapseWs true cs
    else c :: collapseWs false cs

/-- `safeUsername` from src/server.js lines 18-22:
`String(input || "").trim().toLowerCase()`, then whitespace runs become
`-`, characters outside `[a-z0-9_-]` are stripped, and an empty result
falls back to `"player"`. A missing field is `none` (JS `undefined`),
which `String(input || "")` turns into `""`. -/
def safeUsername (input : Option String) : String :=
  let raw := (trimChars (input.getD "").toList).map jsToLower
  let cleaned := (collapseWs false raw).filter isAllowedChar
  if cleaned.isEmpty then "player" else String.mk cleaned

/-- One row of the `leaderboard` table (src/server.js lines 38-45):
`username TEXT PRIMARY KEY`, `best INTEGER`, `updated_at TEXT` (field
`updatedAt`). -/
structure Entry where
  username : String
  best : Nat
  updatedAt : String
deriving DecidableEq, Repr

/-- The `leaderboard` table, as its list of rows. -/
abbrev Store := List Entry

/-- Row-lookup predicate of `SELECT ... WHERE username = ?`. -/
def hasUsername (u : String) (e : Entry) : Bool :=
  e.username == u

/-- Parsed body of `POST /api/score`: `req.body.username` (absent = `none`)
and `Number(req.body.score)` (`none` = non-finite). -/
structure ScoreReq where
  username : Option String
  score : Option ℚ
deriving DecidableEq

/-- Response of `POST /api/score`. -/
inductive ScoreResp where
  | badRequest (error : String)
  | ok (username : String) (best : Nat)
deriving DecidableEq, Repr

/-- `POST /api/score` from src/server.js lines 181-214. `now` is
`new Date().toISOString()`. The handler rejects a falsy username (dead
branch, since `safeUsername` is never empty) and a non-finite or negative
score; otherwise it reads the existing row, computes
`newBest = max(existingBest, floor(score))` and either UPDATEs the
matching row (setting `best` and `updated_at`) or INSERTs a new one. -/
def apiScore (req : ScoreReq) (now : String) (s : Store) : ScoreResp × Store :=
  let username := safeUsername req.username
  if username = "" then (.badRequest "Missing username", s)
  else
    match req.score with
    | none => (.badRequest "Invalid score", s)
    | some scoreNum =>
      if scoreNum < 0 then (.badRequest "Invalid score", s)
      else
        let existing := s.find? (hasUsername username)
        let existingBest := match existing with
          | some e => e.best
          | none => 0
        let newBest := max existingBest scoreNum.floor.toNat
        match existing with
        | some _ =>
          (.ok username newBest,
            s.map fun e =>
              if e.username = username then
                { e with best := newBest, updatedAt := now }
              else e)
        | none =>
          (.ok username newBest, s ++ [⟨username, newBest, now⟩])

/-- Response of `GET /api/rank`. -/
inductive RankResp where
  | badRequest (error : String)
  | ok (username : String) (rank : Option Nat) (total : Nat) (best : Option Nat)
deriving DecidableEq, Repr

/-- The WHERE clause of the rank query (src/server.js lines 236-242):
`best > ? OR (best = ? AND updated_at < ?)`, with the queried row's
`best` and `updated_at` as parameters. -/
def aheadOf (best : Nat) (updatedAt : String) (e : Entry) : Bool :=
  best < e.best || (e.best == best && decide (e.updatedAt < updatedAt))

/-- `GET /api/rank` from src/server.js lines 220-251: normalize the
queried username, count all rows (`total`), look the user up; absent
users get `rank = null, best = null`; present users get
`rank = ahead + 1` where `ahead` counts the rows matching `aheadOf`. -/
def apiRank (usernameQ : Option String) (s : Store) : RankResp :=
  let username := safeUsername usernameQ
  if username = "" then .badRequest "Missing username"
  else
    let total := s.length
    match s.find? (hasUsername username) with
    | none => .ok username none total none
    | some me =>
      let ahead := s.countP (aheadOf me.best me.updatedAt)
      .ok username (some (ahead + 1)) total (some me.best)

/-- The ordering of `ORDER BY best DESC, updated_at ASC` as a total
preorder on rows: `a` may come before `b` iff `a.best > b.best`, or the
bests are equal and `a.updatedAt ≤ b.updatedAt`. -/
def rowLe (a b : Entry) : Prop :=
  b.best < a.best ∨ (a.best = b.best ∧ a.updatedAt ≤ b.updatedAt)

instance : DecidableRel rowLe := fun a b => by
  unfold rowLe; infer_instance

instance : IsTotal Entry rowLe where
  total a b := by
    unfold rowLe
    rcases Nat.lt_trichotomy a.best b.best with h | h | h
    · exact Or.inr (Or.inl h)
    · rcases le_total a.updatedAt b.updatedAt with h' | h'
      · exact Or.inl (Or.inr ⟨h, h'⟩)
      · exact Or.inr (Or.inr ⟨h.symm, h'⟩)
    · exact Or.inl (Or.inl h)

instance : IsTrans Entry rowLe where
  trans a b c hab hbc := by
    unfold rowLe at *
    rcases hab with h1 | ⟨h1, h1'⟩
    · rcases hbc with h2 | ⟨h2, h2'⟩
      · exact Or.inl (h2.trans h1)
      · exact Or.inl (h2 ▸ h1)
    · rcases hbc with h2 | ⟨h2, h2'⟩
      · exact Or.inl (h1 ▸ h2)
      · exact Or.inr ⟨h1.trans h2, h1'.trans h2'⟩

/-- The effective LIMIT of `GET /api/leaderboard` (src/server.js lines
163-164): a finite numeric `limit` query value is clamped to `[1, 50]`,
a non-finite or absent one defaults to 20. -/
def effLimit (limitRaw : Option Int) : Int :=
  match limitRaw with
  | none => 20
  | some n => max 1 (min 50 n)

/-- `GET /api/leaderboard` from src/server.js lines 161-178: the rows of
the store ordered by `best DESC, updated_at ASC`, truncated to the
effective limit. -/
def apiLeaderboard (limitRaw : Option Int) (s : Store) : List Entry :=
  (List.insertionSort rowLe s).take (effLimit limitRaw).toNat

/-- Parsed `POST /api/upload-avatar` request: the `username` field and
the MIME type of the attached `avatar` file part (`none` = no file). -/
structure AvatarReq where
  username : Option String
  fileMime : Option String
deriving DecidableEq

/-- Response of the avatar upload route. -/
inductive AvatarResp where
  | badRequest (error : String)
  | ok (avatarUrl : String)
deriving DecidableEq, Repr

/-- `fileFilter` from src/unnamed/part_000 lines 46-50: the MIME
allow-list used by the legacy `/api/upload-face` multer instance. -/
def fileFilter (mime : String) : Bool :=
  mime == "image/png" || mime == "image/jpeg" || mime == "image/jpg" ||
    mime == "image/webp"

/-- `POST /api/upload-avatar` from src/server.js lines 134-156. The
multer instance `uploadAvatar` is built from `avatarStorage` and a size
limit only — it has no `fileFilter` — so whenever a file part is
attached, whatever its MIME type, multer stores it as
`<safeUsername>.png` in `AVATARS_DIR` before the handler runs; the
handler then returns 400 only when no file part is present. `disk`
models the file names present in `AVATARS_DIR` (overwrites are not
modelled; only presence matters here). -/
def uploadAvatarRoute (req : AvatarReq) (disk : List String) :
    AvatarResp × List String :=
  match req.fileMime with
  | none => (.badRequest "Missing avatar file", disk)
  | some _ =>
    let username := safeUsername req.username
    (.ok ("/avatars/" ++ username ++ ".png"), (username ++ ".png") :: disk)

/-! ### Facts about `safeUsername` -/

lemma not_isJsSpace_of_allowed {c : Char} (h : isAllowedChar c = true) :
    isJsSpace c = false := by
  simp only [isAllowedChar, Bool.or_eq_true, Bool.and_eq_true, decide_eq_true_eq] at h
  simp only [isJsSpace, Bool.or_eq_false_iff, decide_eq_false_iff_not]
  omega

lemma jsToLower_of_allowed {c : Char} (h : isAllowedChar c = true) :
    jsToLower c = c := by
  simp only [isAllowedChar, Bool.or_eq_true, Bool.and_eq_true, decide_eq_true_eq] at h
  unfold jsToLower
  rw [if_neg]
  omega

lemma dropWhile_isJsSpace_of_allowed {l : List Char}
    (h : ∀ c ∈ l, isAllowedChar c = true) : l.dropWhile isJsSpace = l := by
  cases l with
  | nil => rfl
  | cons c cs =>
    rw [List.dropWhile_cons, if_neg]
    simp [not_isJsSpace_of_allowed (h c (by simp))]

lemma trimChars_of_allowed {l : List Char}
    (h : ∀ c ∈ l, isAllowedChar c = true) : trimChars l = l := by
  unfold trimChars
  rw [dropWhile_isJsSpace_of_allowed h,
    dropWhile_isJsSpace_of_allowed (by simpa using h), List.reverse_reverse]

lemma collapseWs_of_allowed {l : List Char}
    (h : ∀ c ∈ l, isAllowedChar c = true) : ∀ b, collapseWs b l = l := by
  induction l with
  | nil => intro b; rfl
  | cons c cs ih =>
    intro b
    unfold collapseWs
    rw [if_neg]
    · rw [ih (fun x hx => h x (by simp [hx]))]
    · simp [not_isJsSpace_of_allowed (h c (by simp))]

lemma map_jsToLower_of_allowed {l : List Char}
    (h : ∀ c ∈ l, isAllowedChar c = true) : l.map jsToLower = l := by
  induction l with
  | nil => rfl
  | cons c cs ih =>
    simp only [List.map_cons, jsToLower_of_allowed (h c (by simp)),
      ih (fun x hx => h x (by simp [hx]))]

lemma safeUsername_chars (inp : Option String) :
    ∀ c ∈ (safeUsername inp).toList, isAllowedChar c = true := by
  unfold safeUsername
  intro c hc
  by_cases hemp :
      ((collapseWs false ((trimChars (inp.getD "").toList).map jsToLower)).filter
        isAllowedChar).isEmpty
  · rw [if_pos hemp] at hc
    have hpl : ("player" : String).toList = ['p', 'l', 'a', 'y', 'e', 'r'] := rfl
    rw [hpl] at hc
    simp only [List.mem_cons, List.not_mem_nil, or_false] at hc
    rcases hc with rfl | rfl | rfl | rfl | rfl | rfl <;> decide
  · rw [if_neg hemp] at hc
    exact List.of_mem_filter hc

lemma safeUsername_ne_empty (inp : Option String) : safeUsername inp ≠ "" := by
  unfold safeUsername
  by_cases hemp :
      ((collapseWs false ((trimChars (inp.getD "").toList).map jsToLower)).filter
        isAllowedChar).isEmpty
  · rw [if_pos hemp]; decide
  · rw [if_neg hemp]
    intro hcon
    apply hemp
    have : (String.mk ((collapseWs false
        ((trimChars (inp.getD "").toList).map jsToLower)).filter isAllowedChar)).data
        = ("" : String).data := by rw [hcon]
    simpa [List.isEmpty_iff] using this

lemma safeUsername_toList_ne_nil (inp : Option String) :
    (safeUsername inp).toList ≠ [] := by
  intro hcon
  apply safeUsername_ne_empty inp
  have : (safeUsername inp).data = ("" : String).data := by simpa using hcon
  exact String.ext this

lemma safeUsername_of_allowed {s : String}
    (h : ∀ c ∈ s.toList, isAllowedChar c = true) (hne : s.toList ≠ []) :
    safeUsername (some s) = s := by
  unfold safeUsername
  simp only [Option.getD_some]
  rw [trimChars_of_allowed h, map_jsToLower_of_allowed h, collapseWs_of_allowed h,
    List.filter_eq_self.mpr h]
  rw [if_neg (by simpa [List.isEmpty_iff] using hne)]
  rfl

lemma safeUsername_idem (inp : Option String) :
    safeUsername (some (safeUsername inp)) = safeUsername inp :=
  safeUsername_of_allowed (safeUsername_chars inp) (safeUsername_toList_ne_nil inp)

/-! ### Facts about row lookup and counting -/

lemma hasUsername_iff {u : String} {e : Entry} :
    hasUsername u e = true ↔ e.username = u := by
  simp [hasUsername]

lemma find?_hasUsername_map {f : Entry → Entry}
    (hf : ∀ e, (f e).username = e.username) (u : String) (l : List Entry) :
    (l.map f).find? (hasUsername u) = (l.find? (hasUsername u)).map f := by
  induction l with
  | nil => rfl
  | cons a l ih =>
    by_cases h : hasUsername u a = true
    · rw [List.map_cons, List.find?_cons_of_pos _ h,
        List.find?_cons_of_pos _ (by simpa [hasUsername, hf] using h)]
      rfl
    · rw [List.map_cons,
        List.find?_cons_of_neg _ (by simpa [hasUsername, hf] using h),
        List.find?_cons_of_neg _ h, ih]

lemma find?_hasUsername_of_mem {s : Store} {e : Entry}
    (hnd : (s.map Entry.username).Nodup) (hmem : e ∈ s) :
    s.find? (hasUsername e.username) = some e := by
  induction s with
  | nil => simp at hmem
  | cons a l ih =>
    have hnd' : a.username ∉ l.map Entry.username ∧ (l.map Entry.username).Nodup := by
      rw [List.map_cons, List.nodup_cons] at hnd
      exact hnd
    rcases List.mem_cons.mp hmem with rfl | hmem'
    · exact List.find?_cons_of_pos _ (hasUsername_iff.mpr rfl)
    · have hne : hasUsername e.username a = false := by
        rw [Bool.eq_false_iff]
        intro hcon
        exact hnd'.1 ((hasUsername_iff.mp hcon) ▸ List.mem_map_of_mem Entry.username hmem')
      rw [List.find?_cons_of_neg _ (by simp [hne]), ih hnd'.2 hmem']

lemma countP_lt_countP {α : Type} {p q : α → Bool} {l : List α} {a : α}
    (hmono : ∀ x ∈ l, p x = true → q x = true) (ha : a ∈ l)
    (hpa : p a = false) (hqa : q a = true) :
    l.countP p < l.countP q := by
  induction l with
  | nil => simp at ha
  | cons b l ih =>
    have hmono' : ∀ x ∈ l, p x = true → q x = true :=
      fun x hx => hmono x (by simp [hx])
    have hle : l.countP p ≤ l.countP q := List.countP_mono_left hmono'
    rw [List.countP_cons, List.countP_cons]
    rcases List.mem_cons.mp ha with rfl | ha'
    · rw [hpa, hqa]
      simp only [Bool.false_eq_true, if_false, if_pos]
      omega
    · have hlt := ih hmono' ha'
      by_cases hb : p b = true
      · rw [hb, hmono b (by simp) hb]
        omega
      · rw [Bool.not_eq_true] at hb
        rw [hb]
        by_cases hqb : q b = true <;> simp [hqb] <;> omega

/-! ### Characterizations of the endpoints (the falsy-username guards are
dead branches, since `safeUsername` never returns `""`) -/

lemma apiScore_eq (req : ScoreReq) (now : String) (s : Store) :
    apiScore req now s =
      match req.score with
      | none => (.badRequest "Invalid score", s)
      | some q =>
        if q < 0 then (.badRequest "Invalid score", s)
        else
          match s.find? (hasUsername (safeUsername req.username)) with
          | some e =>
            (.ok (safeUsername req.username) (max e.best q.floor.toNat),
              s.map fun x =>
                if x.username = safeUsername req.username then
                  { x with best := max e.best q.floor.toNat, updatedAt := now }
                else x)
          | none =>
            (.ok (safeUsername req.username) q.floor.toNat,
              s ++ [⟨safeUsername req.username, q.floor.toNat, now⟩]) := by
  unfold apiScore
  rw [if_neg (safeUsername_ne_empty req.username)]
  cases req.score with
  | none => rfl
  | some q =>
    by_cases hq : q < 0
    · simp [hq]
    · simp only [if_neg hq]
      cases hfind : s.find? (hasUsername (safeUsername req.username)) with
      | some e => simp [hfind]
      | none => simp [hfind, Nat.zero_max]

lemma apiRank_eq (qy : Option String) (s : Store) :
    apiRank qy s =
      match s.find? (hasUsername (safeUsername qy)) with
      | none => .ok (safeUsername qy) none s.length none
      | some me =>
        .ok (safeUsername qy) (some (s.countP (aheadOf me.best me.updatedAt) + 1))
          s.length (some me.best) := by
  unfold apiRank
  rw [if_neg (safeUsername_ne_empty qy)]

lemma updateRow_username (u : String) (nb : Nat) (now : String) (x : Entry) :
    ((fun x : Entry =>
      if x.username = u then { x with best := nb, updatedAt := now }
      else x) x).username = x.username := by
  by_cases h : x.username = u <;> simp [h]

lemma apiScore_username_normalized (req : ScoreReq) (now : String) (s : Store)
    (hs : ∀ e ∈ s, safeUsername (some e.username) = e.username) :
    ∀ e ∈ (apiScore req now s).2, safeUsername (some e.username) = e.username := by
  intro e he
  rw [apiScore_eq] at he
  cases hsc : req.score with
  | none =>
    rw [hsc] at he
    exact hs e he
  | some q =>
    rw [hsc] at he
    by_cases hq : q < 0
    · simp only [if_pos hq] at he
      exact hs e he
    · simp only [if_neg hq] at he
      cases hfind : s.find? (hasUsername (safeUsername req.username)) with
      | some e0 =>
        simp only [hfind, List.mem_map] at he
        rcases he with ⟨x, hx, rfl⟩
        by_cases hxu : x.username = safeUsername req.username
        · simp only [if_pos hxu]
          exact hs x hx
        · simp only [if_neg hxu]
          exact hs x hx
      | none =>
        simp only [hfind, List.mem_append] at he
        rcases he with hin | hnew
        · exact hs e hin
        · have hnew' : e = ⟨safeUsername req.username, q.floor.toNat, now⟩ := by
            simpa using hnew
          rw [hnew']
          exact safeUsername_idem req.username


lemma apiScore_eq_valid (req : ScoreReq) (now : String) (s : Store) (q : ℚ)
    (hsc : req.score = some q) (h0 : 0 ≤ q) :
    apiScore req now s =
      match s.find? (hasUsername (safeUsername req.username)) with
      | some e =>
        (.ok (safeUsername req.username) (max e.best q.floor.toNat),
          s.map fun x =>
            if x.username = safeUsername req.username then
              { x with best := max e.best q.floor.toNat, updatedAt := now }
            else x)
      | none =>
        (.ok (safeUsername req.username) q.floor.toNat,
          s ++ [⟨safeUsername req.username, q.floor.toNat, now⟩]) := by
  rw [apiScore_eq, hsc]
  exact if_neg (not_lt.mpr h0)

/-! ### Claim theorems -/

/-- C10: `safeUsername` always returns a non-empty string over the
alphabet `[a-z0-9_-]` (with fallback `"player"`), it is idempotent, and
consequently `POST /api/score` only ever stores usernames that are
already in normalized form (it preserves that invariant of the store). -/
theorem safeUsername_normalization_spec :
    (∀ inp, safeUsername inp ≠ "") ∧
    (∀ inp, ∀ c ∈ (safeUsername inp).toList, isAllowedChar c = true) ∧
    (∀ inp, safeUsername (some (safeUsername inp)) = safeUsername inp) ∧
    (∀ req now s, (∀ e ∈ s, safeUsername (some e.username) = e.username) →
      ∀ e ∈ (apiScore req now s).2, safeUsername (some e.username) = e.username) :=
  ⟨safeUsername_ne_empty, safeUsername_chars, safeUsername_idem,
    apiScore_username_normalized⟩

/-- Witness for C10: idempotence at a concrete messy input, and the
invariant at a concrete submission to the empty store. -/
theorem safeUsername_normalization_spec_witness :
    safeUsername (some (safeUsername (some " Flappy FACE!! "))) =
      safeUsername (some " Flappy FACE!! ") ∧
    safeUsername (some "alice") = "alice" :=
  ⟨safeUsername_normalization_spec.2.2.1 (some " Flappy FACE!! "),
    safeUsername_normalization_spec.2.2.2 ⟨some "Alice", some 7⟩ "t1" []
      (by simp) ⟨"alice", 7, "t1"⟩ (by decide)⟩

/-- C7 counterexample: a submission with a missing username and the
valid score 5 is accepted — the username is normalized to `"player"` and
a row is inserted — instead of being rejected with HTTP 400 as the claim
requires for every missing-username submission. -/
theorem score_missing_username_accepted :
    apiScore ⟨none, some 5⟩ "2024-01-01T00:00:00.000Z" [] =
      (.ok "player" 5, [⟨"player", 5, "2024-01-01T00:00:00.000Z"⟩]) := by
  decide

/-- C7 (amended): `POST /api/score` answers HTTP 400 — leaving the store
unchanged — iff the score is non-finite or negative; a missing or
invalid username never causes rejection, because `safeUsername` always
produces a non-empty identifier (fallback `"player"`). -/
theorem apiScore_reject_iff (req : ScoreReq) (now : String) (s : Store) :
    ((∃ err, (apiScore req now s).1 = ScoreResp.badRequest err) ↔
      req.score = none ∨ ∃ q, req.score = some q ∧ q < 0) ∧
    ((req.score = none ∨ ∃ q, req.score = some q ∧ q < 0) →
      (apiScore req now s).2 = s) := by
  rw [apiScore_eq]
  cases hsc : req.score with
  | none => simp
  | some q =>
    by_cases hq : q < 0
    · simp [hq]
    · simp only [if_neg hq]
      cases hfind : s.find? (hasUsername (safeUsername req.username)) with
      | some e => simp [hq]
      | none => simp [hq]

/-- Witness for C7 (amended): a negative score is rejected and the store
is untouched; a non-negative score with a missing username is not
rejected. -/
theorem apiScore_reject_iff_witness :
    (∃ err, (apiScore ⟨some "bob", some (-1)⟩ "t1" []).1 = ScoreResp.badRequest err) ∧
    (apiScore ⟨some "bob", some (-1)⟩ "t1" []).2 = [] ∧
    ¬∃ err, (apiScore ⟨none, some 5⟩ "t1" []).1 = ScoreResp.badRequest err :=
  ⟨(apiScore_reject_iff ⟨some "bob", some (-1)⟩ "t1" []).1.mpr
      (Or.inr ⟨-1, rfl, by norm_num⟩),
    (apiScore_reject_iff ⟨some "bob", some (-1)⟩ "t1" []).2
      (Or.inr ⟨-1, rfl, by norm_num⟩),
    fun hcon =>
      (by decide :
        ¬(some 5 = (none : Option ℚ) ∨ ∃ q, (some 5 : Option ℚ) = some q ∧ q < 0))
        ((apiScore_reject_iff ⟨none, some 5⟩ "t1" []).1.mp hcon)⟩

/-- C1 counterexample: alice holds best 10 achieved at the old timestamp;
resubmitting the lower score 5 at a later time leaves `best` at 10 but
overwrites `updatedAt` with the new submission time, so the entry does
not stay unchanged. -/
theorem lower_resubmit_changes_updatedAt :
    apiScore ⟨some "alice", some 5⟩ "2024-02-02T00:00:00.000Z"
        [⟨"alice", 10, "2024-01-01T00:00:00.000Z"⟩] =
      (.ok "alice" 10, [⟨"alice", 10, "2024-02-02T00:00:00.000Z"⟩]) ∧
    ("2024-02-02T00:00:00.000Z" : String) ≠ "2024-01-01T00:00:00.000Z" := by
  decide

/-- C1 (amended): a submission whose floored score does not exceed the
stored best leaves the entry's username and `best` unchanged, but still
rewrites the row, setting `updatedAt` to the submission time (the UPDATE
runs unconditionally for an existing user). -/
theorem apiScore_lower_resubmit (req : ScoreReq) (now : String) (s : Store)
    (q : ℚ) (e : Entry) (hsc : req.score = some q) (h0 : 0 ≤ q)
    (hfind : s.find? (hasUsername (safeUsername req.username)) = some e)
    (hle : q.floor.toNat ≤ e.best) :
    (apiScore req now s).1 = ScoreResp.ok (safeUsername req.username) e.best ∧
    (apiScore req now s).2.find? (hasUsername (safeUsername req.username)) =
      some { e with updatedAt := now } := by
  have hmax : max e.best q.floor.toNat = e.best := Nat.max_eq_left hle
  have heu : e.username = safeUsername req.username :=
    hasUsername_iff.mp (List.find?_some hfind)
  rw [apiScore_eq_valid req now s q hsc h0]
  constructor
  · simp only [hfind, hmax]
  · simp only [hfind]
    rw [find?_hasUsername_map (fun x => by
      by_cases h : x.username = safeUsername req.username <;> simp [h]) _ s]
    rw [hfind]
    simp only [Option.map_some', Option.some.injEq]
    rw [if_pos heu, hmax]

/-- Witness for C1 (amended): alice's resubmission of 5 against best 10
keeps best 10 and stamps the new time. -/
theorem apiScore_lower_resubmit_witness :
    (apiScore ⟨some "alice", some 5⟩ "2024-02-02T00:00:00.000Z"
        [⟨"alice", 10, "2024-01-01T00:00:00.000Z"⟩]).1 =
      ScoreResp.ok "alice" 10 ∧
    (apiScore ⟨some "alice", some 5⟩ "2024-02-02T00:00:00.000Z"
        [⟨"alice", 10, "2024-01-01T00:00:00.000Z"⟩]).2.find?
        (hasUsername "alice") =
      some ⟨"alice", 10, "2024-02-02T00:00:00.000Z"⟩ := by
  have h := apiScore_lower_resubmit ⟨some "alice", some 5⟩
    "2024-02-02T00:00:00.000Z" [⟨"alice", 10, "2024-01-01T00:00:00.000Z"⟩]
    5 ⟨"alice", 10, "2024-01-01T00:00:00.000Z"⟩ rfl (by norm_num) (by decide)
    (by decide)
  have huser : safeUsername (some "alice") = "alice" := by decide
  rw [huser] at h
  exact h

/-- The stored best for a username, with the absent default 0 used by
the handler (`existing ? Number(existing.best) : 0`). -/
def bestOf (s : Store) (u : String) : Nat :=
  match s.find? (hasUsername u) with
  | some e => e.best
  | none => 0

/-- C3: for every valid accepted submission, the stored best for the
submitted (normalized) username never decreases; in particular a score
lower than the current best leaves the stored best unchanged at least as
high as before. -/
theorem apiScore_best_monotone (req : ScoreReq) (now : String) (s : Store)
    (q : ℚ) (hsc : req.score = some q) (h0 : 0 ≤ q) :
    bestOf s (safeUsername req.username) ≤
      bestOf (apiScore req now s).2 (safeUsername req.username) := by
  rw [apiScore_eq_valid req now s q hsc h0]
  cases hfind : s.find? (hasUsername (safeUsername req.username)) with
  | some e =>
    have heu : e.username = safeUsername req.username :=
      hasUsername_iff.mp (List.find?_some hfind)
    unfold bestOf
    simp only [hfind]
    rw [find?_hasUsername_map (fun x => by
      by_cases h : x.username = safeUsername req.username <;> simp [h]) _ s]
    rw [hfind]
    simp only [Option.map_some']
    rw [if_pos heu]
    exact Nat.le_max_left _ _
  | none =>
    unfold bestOf
    simp only [hfind]
    exact Nat.zero_le _

/-- Witness for C3: bob's second, lower submission does not decrease his
stored best. -/
theorem apiScore_best_monotone_witness :
    bestOf [⟨"bob", 9, "t1"⟩] (safeUsername (some "bob")) ≤
      bestOf (apiScore ⟨some "bob", some 3⟩ "t2" [⟨"bob", 9, "t1"⟩]).2
        (safeUsername (some "bob")) :=
  apiScore_best_monotone ⟨some "bob", some 3⟩ "t2" [⟨"bob", 9, "t1"⟩] 3
    rfl (by norm_num)

/-- C6: the rank query for a username with no entry succeeds, returning
`rank = null`, `best = null` and `total` equal to the row count. -/
theorem apiRank_absent_user (qy : Option String) (s : Store)
    (habs : ∀ e ∈ s, e.username ≠ safeUsername qy) :
    apiRank qy s = .ok (safeUsername qy) none s.length none := by
  rw [apiRank_eq]
  have hnone : s.find? (hasUsername (safeUsername qy)) = none :=
    List.find?_eq_none.mpr fun x hx => by simp [hasUsername, habs x hx]
  rw [hnone]

/-- Witness for C6: querying carol against a one-row store returns null
rank and best with total 1. -/
theorem apiRank_absent_user_witness :
    apiRank (some "carol") [⟨"alice", 10, "t1"⟩] =
      .ok (safeUsername (some "carol")) none 1 none :=
  apiRank_absent_user (some "carol") [⟨"alice", 10, "t1"⟩]
    (by intro e he; simp at he; rw [he]; decide)

/-- C8 (code bug): `POST /api/upload-avatar` does no MIME validation —
its multer instance has no `fileFilter` — so uploading a `text/plain`
file is answered 200 and the file is written to disk, even though the
repository's own allow-list `fileFilter` (used by the legacy
`/api/upload-face` route) rejects `text/plain`. -/
theorem uploadAvatar_text_plain_accepted :
    uploadAvatarRoute ⟨some "alice", some "text/plain"⟩ [] =
      (.ok "/avatars/alice.png", ["alice.png"]) ∧
    fileFilter "text/plain" = false := by
  decide

/-- The spec's counting predicate as a proposition: row `e` is strictly
ahead of the queried row `mine` when its best is strictly greater, or
the bests are equal and `e` was updated strictly earlier. -/
def strictlyAhead (mine e : Entry) : Prop :=
  mine.best < e.best ∨ (e.best = mine.best ∧ e.updatedAt < mine.updatedAt)

instance (mine e : Entry) : Decidable (strictlyAhead mine e) := by
  unfold strictlyAhead
  infer_instance

lemma aheadOf_eq_decide (mine e : Entry) :
    aheadOf mine.best mine.updatedAt e = decide (strictlyAhead mine e) := by
  unfold aheadOf strictlyAhead
  by_cases h1 : mine.best < e.best <;> by_cases h2 : e.best = mine.best <;>
    by_cases h3 : e.updatedAt < mine.updatedAt <;> simp [h1, h2, h3]

lemma aheadOf_self (e : Entry) : aheadOf e.best e.updatedAt e = false := by
  simp [aheadOf]

/-- C2: for a present user, the rank query returns rank
`1 + count(rows strictly ahead)` — strictly ahead meaning strictly
greater best, or equal best with strictly earlier updatedAt — and for
any user the returned total is the count of all rows, whether or not the
queried username has an entry. -/
theorem apiRank_formula (qy : Option String) (s : Store) :
    (∀ me, s.find? (hasUsername (safeUsername qy)) = some me →
      apiRank qy s = .ok (safeUsername qy)
        (some (s.countP (fun e => decide (strictlyAhead me e)) + 1))
        s.length (some me.best)) ∧
    (s.find? (hasUsername (safeUsername qy)) = none →
      apiRank qy s = .ok (safeUsername qy) none s.length none) := by
  constructor
  · intro me hme
    have heq : s.countP (aheadOf me.best me.updatedAt) =
        s.countP fun e => decide (strictlyAhead me e) :=
      List.countP_congr fun e _ => by rw [aheadOf_eq_decide]
    rw [apiRank_eq, hme]
    show RankResp.ok (safeUsername qy)
        (some (s.countP (aheadOf me.best me.updatedAt) + 1)) s.length
        (some me.best) =
      RankResp.ok (safeUsername qy)
        (some (s.countP (fun e => decide (strictlyAhead me e)) + 1)) s.length
        (some me.best)
    rw [heq]
  · intro hnone
    rw [apiRank_eq, hnone]

/-- Witness for C2: with alice ahead of bob, bob's rank is 2 of 2 and a
query for absent carol returns nulls with the same total. -/
theorem apiRank_formula_witness :
    apiRank (some "bob") [⟨"alice", 10, "t1"⟩, ⟨"bob", 7, "t2"⟩] =
      .ok (safeUsername (some "bob"))
        (some (List.countP
          (fun e => decide (strictlyAhead ⟨"bob", 7, "t2"⟩ e))
          [⟨"alice", 10, "t1"⟩, ⟨"bob", 7, "t2"⟩] + 1))
        2 (some 7) ∧
    apiRank (some "carol") [⟨"alice", 10, "t1"⟩, ⟨"bob", 7, "t2"⟩] =
      .ok (safeUsername (some "carol")) none 2 none :=
  ⟨(apiRank_formula (some "bob") [⟨"alice", 10, "t1"⟩, ⟨"bob", 7, "t2"⟩]).1
      ⟨"bob", 7, "t2"⟩ (by decide),
    (apiRank_formula (some "carol") [⟨"alice", 10, "t1"⟩, ⟨"bob", 7, "t2"⟩]).2
      (by decide)⟩

/-- C5: every existing entry's rank is in `[1, total]`, and when the
maximum best is held by that entry alone its rank is exactly 1. -/
theorem apiRank_bounds (qy : Option String) (s : Store) (e : Entry)
    (hmem : e ∈ s) (hq : safeUsername qy = e.username)
    (hnd : (s.map Entry.username).Nodup) :
    (∃ r, apiRank qy s = .ok e.username (some r) s.length (some e.best) ∧
      1 ≤ r ∧ r ≤ s.length) ∧
    ((∀ x ∈ s, x ≠ e → x.best < e.best) →
      apiRank qy s = .ok e.username (some 1) s.length (some e.best)) := by
  have hfind : s.find? (hasUsername (safeUsername qy)) = some e := by
    rw [hq]
    exact find?_hasUsername_of_mem hnd hmem
  have hrank : apiRank qy s = .ok e.username
      (some (s.countP (aheadOf e.best e.updatedAt) + 1)) s.length (some e.best) := by
    rw [apiRank_eq, hfind, hq]
  constructor
  · refine ⟨s.countP (aheadOf e.best e.updatedAt) + 1, hrank,
      Nat.le_add_left 1 _, ?_⟩
    have hlt : s.countP (aheadOf e.best e.updatedAt) <
        s.countP (fun _ => true) :=
      countP_lt_countP (fun x _ _ => rfl) hmem (aheadOf_self e) rfl
    simp only [List.countP_true] at hlt
    omega
  · intro hmax
    have hzero : s.countP (aheadOf e.best e.updatedAt) = 0 :=
      List.countP_eq_zero.mpr fun x hx => by
        by_cases hxe : x = e
        · rw [hxe, aheadOf_self]
          simp
        · have hlt := hmax x hx hxe
          simp [aheadOf, Nat.lt_asymm hlt, Nat.ne_of_lt hlt]
    rw [hrank, hzero]

/-- Witness for C5: bob uniquely holds the maximum 15 in a two-row store
and is ranked 1 of 2. -/
theorem apiRank_bounds_witness :
    apiRank (some "bob") [⟨"alice", 10, "t1"⟩, ⟨"bob", 15, "t2"⟩] =
      .ok "bob" (some 1) 2 (some 15) :=
  (apiRank_bounds (some "bob") [⟨"alice", 10, "t1"⟩, ⟨"bob", 15, "t2"⟩]
    ⟨"bob", 15, "t2"⟩ (by decide) (by decide) (by decide)).2 (by decide)

/-- C4: of two existing entries with equal best, the one with the
strictly earlier updatedAt gets the strictly smaller (better) rank. -/
theorem apiRank_tiebreak (q1 q2 : Option String) (s : Store) (e1 e2 : Entry)
    (h1 : e1 ∈ s) (h2 : e2 ∈ s) (hnd : (s.map Entry.username).Nodup)
    (hq1 : safeUsername q1 = e1.username) (hq2 : safeUsername q2 = e2.username)
    (hb : e1.best = e2.best) (hu : e1.updatedAt < e2.updatedAt) :
    ∃ r1 r2,
      apiRank q1 s = .ok e1.username (some r1) s.length (some e1.best) ∧
      apiRank q2 s = .ok e2.username (some r2) s.length (some e2.best) ∧
      r1 < r2 := by
  have hf1 : s.find? (hasUsername (safeUsername q1)) = some e1 := by
    rw [hq1]
    exact find?_hasUsername_of_mem hnd h1
  have hf2 : s.find? (hasUsername (safeUsername q2)) = some e2 := by
    rw [hq2]
    exact find?_hasUsername_of_mem hnd h2
  refine ⟨s.countP (aheadOf e1.best e1.updatedAt) + 1,
    s.countP (aheadOf e2.best e2.updatedAt) + 1,
    by rw [apiRank_eq, hf1, hq1], by rw [apiRank_eq, hf2, hq2], ?_⟩
  have hcount : s.countP (aheadOf e1.best e1.updatedAt) <
      s.countP (aheadOf e2.best e2.updatedAt) := by
    apply countP_lt_countP ?mono h1 (aheadOf_self e1) ?qa
    case mono =>
      intro x hx hax
      simp only [aheadOf, Bool.or_eq_true, Bool.and_eq_true,
        decide_eq_true_eq, beq_iff_eq] at hax ⊢
      rcases hax with hgt | ⟨hbe, hul⟩
      · exact Or.inl (hb ▸ hgt)
      · exact Or.inr ⟨hb ▸ hbe, hul.trans hu⟩
    case qa =>
      simp only [aheadOf, Bool.or_eq_true, Bool.and_eq_true,
        decide_eq_true_eq, beq_iff_eq]
      exact Or.inr ⟨hb, hu⟩
  omega

/-- Witness for C4: alice and bob both have best 10; alice reached it
earlier and is ranked 1, bob 2. -/
theorem apiRank_tiebreak_witness :
    ∃ r1 r2,
      apiRank (some "alice") [⟨"alice", 10, "t1"⟩, ⟨"bob", 10, "t2"⟩] =
        .ok "alice" (some r1) 2 (some 10) ∧
      apiRank (some "bob") [⟨"alice", 10, "t1"⟩, ⟨"bob", 10, "t2"⟩] =
        .ok "bob" (some r2) 2 (some 10) ∧
      r1 < r2 :=
  apiRank_tiebreak (some "alice") (some "bob")
    [⟨"alice", 10, "t1"⟩, ⟨"bob", 10, "t2"⟩]
    ⟨"alice", 10, "t1"⟩ ⟨"bob", 10, "t2"⟩
    (by decide) (by decide) (by decide) (by decide) (by decide)
    rfl (String.lt_iff_toList_lt.mpr (by decide))

/-! ### Agreement of the listing with the rank query -/

/-- The comparison key of a row: the `(best, updatedAt)` pair used both
by the listing's ORDER BY and by the rank query's counting predicate. -/
def rowKey (e : Entry) : Nat × String :=
  (e.best, e.updatedAt)

lemma aheadOf_of_rowLe_ne {x e : Entry} (hne : rowKey x ≠ rowKey e)
    (h : rowLe x e) : aheadOf e.best e.updatedAt x = true := by
  unfold rowLe at h
  simp only [aheadOf, Bool.or_eq_true, Bool.and_eq_true, decide_eq_true_eq,
    beq_iff_eq]
  rcases h with hgt | ⟨hbe, hle⟩
  · exact Or.inl hgt
  · rcases lt_or_eq_of_le hle with hlt | heq
    · exact Or.inr ⟨hbe, hlt⟩
    · exact absurd (by simp [rowKey, hbe, heq]) hne

lemma not_aheadOf_of_rowLe {x e : Entry} (h : rowLe e x) :
    aheadOf e.best e.updatedAt x = false := by
  unfold rowLe at h
  rw [Bool.eq_false_iff]
  intro htrue
  simp only [aheadOf, Bool.or_eq_true, Bool.and_eq_true, decide_eq_true_eq,
    beq_iff_eq] at htrue
  rcases h with hlt | ⟨heq, hle⟩ <;> rcases htrue with hgt | ⟨hbe, hul⟩
  · omega
  · omega
  · omega
  · exact absurd hul (not_lt.mpr hle)

lemma countP_aheadOf_sorted {t : List Entry} (hsorted : List.Sorted rowLe t)
    (hkeys : (t.map rowKey).Nodup) {i : Nat} (hit : i < t.length) :
    t.countP (aheadOf (t[i].best) (t[i].updatedAt)) = i := by
  have hpw := List.pairwise_iff_getElem.mp hsorted
  have hkpw := List.pairwise_iff_getElem.mp hkeys
  have hall : ∀ x ∈ t.take i, aheadOf (t[i].best) (t[i].updatedAt) x = true := by
    intro x hx
    obtain ⟨j, hj, hjx⟩ := List.mem_iff_getElem.mp hx
    have hjlt : j < i := Nat.lt_of_lt_of_le hj (List.length_take_le i t)
    have hjt : j < t.length := Nat.lt_trans hjlt hit
    have hxj : x = t[j] := by
      rw [← hjx, List.getElem_take]
    rw [hxj]
    apply aheadOf_of_rowLe_ne
    · intro hcon
      have hne := hkpw j i (by simpa using hjt) (by simpa using hit) hjlt
      simp only [List.getElem_map] at hne
      exact hne hcon
    · exact hpw j i hjt hit hjlt
  have htk : (t.take i).countP (aheadOf (t[i].best) (t[i].updatedAt)) = i := by
    rw [List.countP_eq_length.mpr hall, List.length_take]
    exact Nat.min_eq_left (Nat.le_of_lt hit)
  have hdp : (t.drop (i + 1)).countP (aheadOf (t[i].best) (t[i].updatedAt)) = 0 := by
    rw [List.countP_eq_zero]
    intro x hx
    obtain ⟨j, hj, hjx⟩ := List.mem_iff_getElem.mp hx
    have hj' : j < t.length - (i + 1) := by
      simpa [List.length_drop] using hj
    have hlt2 : i + 1 + j < t.length := by omega
    have hx2 : x = t[i + 1 + j] := by
      rw [← hjx, List.getElem_drop]
    rw [hx2]
    simp [not_aheadOf_of_rowLe (hpw i (i + 1 + j) hit hlt2 (by omega))]
  calc t.countP (aheadOf (t[i].best) (t[i].updatedAt))
      = (t.take i ++ t.drop i).countP (aheadOf (t[i].best) (t[i].updatedAt)) := by
        rw [List.take_append_drop]
    _ = i := by
        rw [List.countP_append, List.drop_eq_getElem_cons hit, List.countP_cons,
          htk, hdp, aheadOf_self]
        simp

/-- C9: when all `(best, updatedAt)` keys are pairwise distinct —
so the SQL ordering is unambiguous — and the effective limit covers the
whole table, the leaderboard listing and the rank query agree: the row
at 0-based position `i` of the listing is ranked `i + 1` by the rank
query. Usernames are pairwise distinct (the table's primary key) and
stored in normalized form (an invariant the score endpoint maintains). -/
theorem apiLeaderboard_apiRank_agree (limitRaw : Option Int) (s : Store)
    (hkeys : (s.map rowKey).Nodup)
    (husers : (s.map Entry.username).Nodup)
    (hnorm : ∀ e ∈ s, safeUsername (some e.username) = e.username)
    (hlim : s.length ≤ (effLimit limitRaw).toNat)
    (i : Nat) (hi : i < (apiLeaderboard limitRaw s).length) :
    apiRank (some ((apiLeaderboard limitRaw s)[i].username)) s =
      .ok ((apiLeaderboard limitRaw s)[i].username) (some (i + 1)) s.length
        (some ((apiLeaderboard limitRaw s)[i].best)) := by
  have hperm : List.Perm (List.insertionSort rowLe s) s := List.perm_insertionSort rowLe s
  have hlen : (List.insertionSort rowLe s).length = s.length := hperm.length_eq
  have htake : apiLeaderboard limitRaw s = List.insertionSort rowLe s := by
    unfold apiLeaderboard
    exact List.take_of_length_le (by omega)
  have hi' : i < (List.insertionSort rowLe s).length := by
    rw [← htake]
    exact hi
  have hel : (apiLeaderboard limitRaw s)[i] = (List.insertionSort rowLe s)[i] :=
    List.getElem_of_eq htake hi
  rw [hel]
  have hmem : (List.insertionSort rowLe s)[i] ∈ s :=
    hperm.mem_iff.mp (List.getElem_mem hi')
  have hq : safeUsername (some ((List.insertionSort rowLe s)[i].username)) =
      (List.insertionSort rowLe s)[i].username := hnorm _ hmem
  have hfind : s.find? (hasUsername ((List.insertionSort rowLe s)[i].username)) =
      some ((List.insertionSort rowLe s)[i]) :=
    find?_hasUsername_of_mem husers hmem
  have hkeys_t : ((List.insertionSort rowLe s).map rowKey).Nodup :=
    (hperm.map rowKey).nodup_iff.mpr hkeys
  have hcnt : s.countP (aheadOf ((List.insertionSort rowLe s)[i].best)
      ((List.insertionSort rowLe s)[i].updatedAt)) = i := by
    rw [← hperm.countP_eq]
    exact countP_aheadOf_sorted (List.sorted_insertionSort rowLe s) hkeys_t hi'
  rw [apiRank_eq, hq, hfind]
  show RankResp.ok ((List.insertionSort rowLe s)[i].username)
      (some (s.countP (aheadOf ((List.insertionSort rowLe s)[i].best)
        ((List.insertionSort rowLe s)[i].updatedAt)) + 1)) s.length
      (some ((List.insertionSort rowLe s)[i].best)) =
    RankResp.ok ((List.insertionSort rowLe s)[i].username) (some (i + 1))
      s.length (some ((List.insertionSort rowLe s)[i].best))
  rw [hcnt]

/-- Witness for C9: in a two-row store with distinct bests, the top
listing row (bob, best 15) is ranked 1 by the rank query. -/
theorem apiLeaderboard_apiRank_agree_witness :
    apiRank (some "bob") [⟨"alice", 10, "t1"⟩, ⟨"bob", 15, "t2"⟩] =
      .ok "bob" (some 1) 2 (some 15) := by
  have h := apiLeaderboard_apiRank_agree none
    [⟨"alice", 10, "t1"⟩, ⟨"bob", 15, "t2"⟩]
    (by decide) (by decide) (by decide) (by decide) 0 (by decide)
  exact h
